import Mathlib

/-!
Verification of the inventory-formatter pipeline (src/format.py).

The script is a single-pass transformation: column reconciliation by
approximate string matching (difflib), row-wise cost correction, and
spreadsheet rendering.  This file shallowly embeds those stages:

* `lcp`, `flm`, `matchTotalF`, `matchTotal` model `difflib.SequenceMatcher`
  ratios (no junk heuristics apply: the compared strings are far shorter
  than the autojunk threshold of 200).  `difflib.find_longest_match` scans
  ending positions in increasing order and replaces the best block only on
  a strictly larger size, which selects, among the common substrings of
  maximal length, the one with the least start in the first sequence and
  then the least start in the second; `flm` computes exactly that by
  scanning start pairs in increasing order and keeping the first strict
  maximum of the longest-common-prefix of the suffixes.  `ratio` is
  2*M/(len1+len2); we keep the numerator `matchTotal` and denominator as
  naturals and compare by cross-multiplication, which agrees with the
  Python float comparisons at these string lengths (distinct ratios with
  denominators below a few hundred differ by far more than double-precision
  rounding error, and 0.6 rounds below 3/5).

* `getCloseMatch` models `difflib.get_close_matches(word, possibilities,
  n=1, cutoff=0.6)`: candidates scoring at least the cutoff, the best one
  returned, ties on the score broken by the larger candidate string
  (heapq.nlargest compares the (score, string) pairs) and then by the
  earlier candidate.

* `colMap`, `renameCols`, `reconcile` model format.py lines 27-41,
  including the orientation of the rename mapper exactly as written
  (`col_map` maps canonical name to matched raw name and is passed to
  `df.rename` unchanged).

* `Row`, `usdEach`, `noteOf`, `totalMark`, `correct` model lines 44-89 on
  a typed row (warehouse/code/name strings, quantity/cost rationals, per
  the data model; Python floats are modelled as exact rationals and the
  `{:,.2f}` format as exact round-half-to-even to cents, which agrees with
  the program on double-representable amounts — see `fmtNum2`).

* `renderRows`, `render` model the final cell contents of the worksheet
  after lines 96-138 (pandas writes the data, then the script overwrites
  the Quantity, USD Each and Total cells); `evalTotal` models how the
  consuming spreadsheet application evaluates the written product formula,
  coercing a currency-text operand cell to its numeric value.
-/

set_option maxRecDepth 100000

/-- Length of the longest common prefix of two character lists. -/
def lcp : List Char → List Char → Nat
  | a :: as, b :: bs => if a = b then lcp as bs + 1 else 0
  | _, _ => 0

/-- One scan step of the longest-match search: candidate start pair `(i, j)`
replaces the best block only when its match is strictly longer. -/
def flmStep (a b : List Char) (i : Nat) (best : Nat × Nat × Nat) (j : Nat) :
    Nat × Nat × Nat :=
  let k := lcp (a.drop i) (b.drop j)
  if best.2.2 < k then (i, j, k) else best

/-- Inner scan over all start positions `j` in `b` for a fixed `i`. -/
def flmInner (a b : List Char) (i : Nat) (s : Nat × Nat × Nat) : Nat × Nat × Nat :=
  (List.range (b.length + 1)).foldl (flmStep a b i) s

/-- `find_longest_match` over whole sequences: the longest common substring,
least start in `a` first, then least start in `b` (see header comment). -/
def flm (a b : List Char) : Nat × Nat × Nat :=
  (List.range (a.length + 1)).foldl (fun s i => flmInner a b i s) (0, 0, 0)

/-- Total size of the matching blocks of `SequenceMatcher.get_matching_blocks`:
take the longest match, recurse on the parts left and right of it.  The fuel
argument bounds the recursion depth; `matchTotal` supplies `a.length +
b.length`, which the recursion (each side strictly shorter in combined
length once a nonempty block is found) never exhausts. -/
def matchTotalF : Nat → List Char → List Char → Nat
  | 0, _, _ => 0
  | fuel + 1, a, b =>
    let r := flm a b
    if r.2.2 = 0 then 0
    else
      matchTotalF fuel (a.take r.1) (b.take r.2.1) + r.2.2 +
        matchTotalF fuel (a.drop (r.1 + r.2.2)) (b.drop (r.2.1 + r.2.2))

/-- Numerator data of `SequenceMatcher(None, x, w).ratio()`; the ratio itself
is `2 * matchTotal x w / (x.length + w.length)`. -/
def matchTotal (a b : List Char) : Nat := matchTotalF (a.length + b.length) a b

/-- Denominator of the similarity ratio. -/
def ratioDen (x w : String) : Nat := x.data.length + w.data.length

/-- Python lexicographic string comparison `a > b` on code points. -/
def listGt : List Char → List Char → Bool
  | _ :: _, [] => true
  | [], _ => false
  | a :: as, b :: bs =>
    if b.toNat < a.toNat then true
    else if a.toNat < b.toNat then false
    else listGt as bs

/-- Python `x > y` on strings. -/
def strGtB (x y : String) : Bool := listGt x.data y.data

/-- Comparison of scored candidates `(ratio, string)` as `heapq.nlargest`
orders them: by ratio, then by the string.  Ratios are compared by
cross-multiplication (see header comment on float fidelity). -/
def better (x y w : String) : Bool :=
  let mx := matchTotal x.data w.data
  let tx := ratioDen x w
  let my := matchTotal y.data w.data
  let ty := ratioDen y w
  if my * tx < mx * ty then true
  else if mx * ty = my * tx then strGtB x y
  else false

/-- One fold step of `get_close_matches`: keep a candidate only when its
ratio reaches the 0.6 cutoff (`2m/t >= 3/5` iff `3t <= 10m`), then keep the
better of it and the current best (the earlier candidate on full ties). -/
def gcmStep (w : String) (best : Option String) (x : String) : Option String :=
  if 3 * ratioDen x w ≤ 10 * matchTotal x.data w.data then
    match best with
    | none => some x
    | some y => if better x y w then some x else some y
  else best

/-- `difflib.get_close_matches(w, cols, n=1, cutoff=0.6)`, returning the
single best candidate if any reaches the cutoff. -/
def getCloseMatch (w : String) (cols : List String) : Option String :=
  cols.foldl (gcmStep w) none

/-- format.py line 27: the required canonical column names. -/
def expected_cols : List String := ["Warehouse", "Code", "Eng Name", "Quantity", "Cost"]

/-- format.py lines 28-34: `col_map`, the dict from canonical name to the
fuzzily matched raw column name, in canonical order. -/
def colMap (cols : List String) : List (String × String) :=
  expected_cols.filterMap fun c => (getCloseMatch c cols).map fun m => (c, m)

/-- format.py line 38: `df.rename(columns=col_map)` — pandas renames every
column whose current label is a KEY of the mapper to the corresponding
value, and ignores keys that are not current labels.  The script passes
`col_map` (canonical → raw) as the mapper. -/
def renameCols (cols : List String) (cm : List (String × String)) : List String :=
  cols.map fun c =>
    match cm.lookup c with
    | some v => v
    | none => c

/-- Canonical columns absent from the (renamed) table; a nonempty result
makes the selection `df[[...]]` on line 41 raise a KeyError naming them. -/
def missingCols (renamed : List String) : List String :=
  expected_cols.filter fun c => decide (c ∉ renamed)

/-- Terminal errors of the run: the explicit missing-columns stop on lines
35-37 (reporting `list(col_map.values())`), and the KeyError from the
column selection on line 41, caught by the top-level handler. -/
inductive PipeError where
  | schemaMismatch (found : List String)
  | keyError (missing : List String)
  deriving DecidableEq, Repr

/-- format.py lines 27-41: build `col_map`, stop when it is incomplete,
rename, then select the five canonical columns. -/
def reconcile (cols : List String) : Except PipeError (List String) :=
  let cm := colMap cols
  if cm.length ≠ expected_cols.length then
    Except.error (PipeError.schemaMismatch (cm.map Prod.snd))
  else if (missingCols (renameCols cols cm)).isEmpty then
    Except.ok (renameCols cols cm)
  else
    Except.error (PipeError.keyError (missingCols (renameCols cols cm)))

/-- An inventory row as reconciled: the five canonical fields, typed per
the data model (strings for warehouse, code and name; exact rationals for
quantity and cost, modelling the numeric columns). -/
structure Row where
  warehouse : String
  code : String
  name : String
  quantity : ℚ
  cost : ℚ

/-- format.py line 48. -/
def special_warehouses : List String :=
  ["DONA - RGA Warehouse", "DONA - Scrap Warehouse", "NOT FOR SALE", "INVOICED"]

/-- format.py line 49. -/
def adjust_codes : List String := ["029813261", "NA029813261"]

/-- format.py line 50. -/
def price_029813 : ℚ := 1398.06

/-- format.py line 51. -/
def price_91v2 : ℚ := 7752.42

/-- Python `str.strip()`: remove leading and trailing whitespace. -/
def pyStrip (s : String) : String :=
  ⟨((s.data.dropWhile Char.isWhitespace).reverse.dropWhile Char.isWhitespace).reverse⟩

/-- format.py lines 54-55: the cost overrides, applied in sequence.  Line 54
sets the price for codes with `df["Code"].isin(adjust_codes)` — membership
of the unmodified code value, with no whitespace stripping; line 55 then
sets the price for codes whose `astype(str).str.strip()` equals
"91V2NU000001" (the later assignment wins, though no code can satisfy
both). -/
def usdEach (r : Row) : ℚ :=
  if pyStrip r.code = "91V2NU000001" then price_91v2
  else if r.code ∈ adjust_codes then price_029813
  else r.cost

/-- Round `q * 100` to the nearest integer, ties to even: the exact-rational
model of the rounding done by Python's `format(x, ",.2f")`.  `q * 100` is
the unreduced fraction `q.num * 100 / q.den`; its floor and the position of
its fractional part relative to one half do not depend on reduction. -/
def roundHalfEvenCents (q : ℚ) : ℤ :=
  let n : ℤ := q.num * 100
  let d : ℤ := (q.den : ℤ)
  let f : ℤ := n.fdiv d
  let rnum : ℤ := n - f * d
  if 2 * rnum < d then f
  else if d < 2 * rnum then f + 1
  else if f % 2 = 0 then f else f + 1

/-- Insert a comma after every third character of a least-significant-first
digit list. -/
def groupRev : List Char → List Char
  | d1 :: d2 :: d3 :: d4 :: rest => d1 :: d2 :: d3 :: ',' :: groupRev (d4 :: rest)
  | l => l

/-- Thousands grouping of a most-significant-first digit list. -/
def groupDigits (ds : List Char) : List Char := (groupRev ds.reverse).reverse

/-- Python `f"{x:,.2f}"` on the exact rational `x`: two decimals, rounded
half to even, thousands separators.  The program rounds the stored IEEE
double, so this exact-rational model is faithful on values that are exact
doubles (or whose double rounds to the same cent); rationals that fall
between doubles exactly on a half cent, such as 10.005, are outside the
model's intended domain and are not used as inputs anywhere below. -/
def fmtNum2 (q : ℚ) : String :=
  let cents := roundHalfEvenCents q
  let a := cents.natAbs
  let intPart := groupDigits (Nat.toDigits 10 (a / 100))
  let frac := [Char.ofNat (48 + (a % 100) / 10), Char.ofNat (48 + a % 100 % 10)]
  (if cents < 0 then "-" else "") ++ (intPart ++ '.' :: frac).asString

/-- Python `f"${x:,.2f}"`, the currency text used for notes (lines 78 and
81) and for the rendered USD Each cell (line 120). -/
def fmtUSD (q : ℚ) : String := "$" ++ fmtNum2 q

/-- format.py lines 75-83: the note, built from the UNMODIFIED original
cost (the "Original Cost" backup of line 45).  Branch one tests raw
membership in `adjust_codes`; branch two tests the stripped code. -/
def noteOf (r : Row) : String :=
  if r.code ∈ adjust_codes then
    "Compiere previously showed " ++ fmtUSD r.cost
  else if pyStrip r.code = "91V2NU000001" then
    "Compiere is showing a cost of " ++ fmtUSD r.cost ++ "; See DONA-PO-10001758"
  else ""

/-- format.py lines 69-73: the "Total USD Each" column entry, either the
zero-override marker or the empty placeholder later replaced by a formula. -/
def totalMark (r : Row) : String :=
  if r.warehouse ∈ special_warehouses then "$0.00" else ""

/-- A row of the corrected table (after lines 44-86): the five display fields
plus the Original Cost backup, the overridden unit cost, the total marker
and the note. -/
structure Corrected where
  warehouse : String
  code : String
  name : String
  quantity : ℚ
  origCost : ℚ
  usd : ℚ
  total : String
  note : String

/-- The per-row correction (lines 45, 54-55, 60-86 for one row). -/
def correctRow (r : Row) : Corrected :=
  { warehouse := r.warehouse, code := r.code, name := r.name,
    quantity := r.quantity, origCost := r.cost, usd := usdEach r,
    total := totalMark r, note := noteOf r }

/-- The corrected table: the loop of lines 58-86 visits the rows in order
and appends one note and one total per row. -/
def correct (rows : List Row) : List Corrected := rows.map correctRow

/-- format.py line 89: the final display columns, in order. -/
def final_cols : List String :=
  ["Warehouse", "Code", "Eng Name", "Quantity", "USD Each", "Total USD Each",
    "Notes (Ex. Rate 1.12)"]

/-- format.py line 107: `df.columns.get_loc("Quantity")`. -/
def qty_col : Nat := final_cols.findIdx fun c => c == "Quantity"

/-- format.py line 108: `df.columns.get_loc("USD Each")`. -/
def usd_col : Nat := final_cols.findIdx fun c => c == "USD Each"

/-- format.py line 109: `df.columns.get_loc("Total USD Each")`. -/
def total_col_idx : Nat := final_cols.findIdx fun c => c == "Total USD Each"

/-- format.py lines 127-128: `chr(ord("A") + col)`. -/
def colLetter (n : Nat) : Char := Char.ofNat (65 + n)

/-- A written worksheet cell: a number (`write_number`), a text cell
(`write_string` or the values written by `to_excel`), or the product
formula of line 130 (`write_formula`), stored with the two referenced
cells (column index and one-based Excel row number). -/
inductive Cell where
  | num (q : ℚ)
  | str (s : String)
  | mulFormula (c1 r1 c2 r2 : Nat)
  deriving DecidableEq

/-- The exact text handed to `write_formula` on line 130, as built on line
129: `f"={q_col_letter}{excel_row+1}*{u_col_letter}{excel_row+1}"`. -/
def Cell.text : Cell → String
  | .mulFormula c1 r1 c2 r2 =>
      "=" ++ (colLetter c1).toString ++ toString r1 ++ "*" ++
        (colLetter c2).toString ++ toString r2
  | .num _ => ""
  | .str s => s

/-- The final contents of the worksheet row for data row `row_num` (0-based
index of the dataframe row), after `to_excel` wrote the values and lines
116-130 overwrote the Quantity, USD Each and Total cells.  The cell sits at
0-based sheet row `row_num + 1`, i.e. 1-based Excel row `row_num + 2`,
which is the row number embedded in the formula text. -/
def renderDataRow (row_num : Nat) (c : Corrected) : List Cell :=
  [Cell.str c.warehouse, Cell.str c.code, Cell.str c.name,
    Cell.num c.quantity,
    Cell.str (fmtUSD c.usd),
    (if c.total = "$0.00" then Cell.str "$0.00"
      else Cell.mulFormula qty_col (row_num + 2) usd_col (row_num + 2)),
    Cell.str c.note]

/-- The data rows in order, `row_num` counting from `i`. -/
def renderRowsFrom (i : Nat) : List Corrected → List (List Cell)
  | [] => []
  | c :: cs => renderDataRow i c :: renderRowsFrom (i + 1) cs

/-- All rendered data rows, indices from 0 (the dataframe keeps its default
range index: no row is ever added, dropped or reindexed). -/
def renderRows (cs : List Corrected) : List (List Cell) := renderRowsFrom 0 cs

/-- One worksheet of the output workbook. -/
structure Sheet where
  name : String
  header : List String
  rows : List (List Cell)

/-- The downloadable artifact: file name from line 148, a single sheet
"Formatted" (line 97) whose first row holds the literal column names
(lines 102-104). -/
structure Output where
  fileName : String
  sheets : List Sheet

/-- format.py lines 95-148: the rendered workbook. -/
def render (cs : List Corrected) : Output :=
  { fileName := "formatted_inventory.xlsx",
    sheets := [{ name := "Formatted", header := final_cols, rows := renderRows cs }] }

/-- The whole run on an upload whose raw header is `cols` and whose five
matched columns carry the typed values `rows`: reconcile, then correct and
render.  Any reconciliation error aborts before any row is touched and no
output is produced. -/
def pipeline (cols : List String) (rows : List Row) : Except PipeError Output :=
  match reconcile cols with
  | Except.error e => Except.error e
  | Except.ok _ => Except.ok (render (correct rows))

/-- Numeric coercion the consuming spreadsheet application applies to an
operand cell of an arithmetic formula: numbers evaluate to themselves and
numeric-looking text (here, currency text such as "$1,398.06") to its
parsed value. -/
def digitsToNat (ds : List Char) : Nat := ds.foldl (fun a c => 10 * a + (c.toNat - 48)) 0

/-- The digits (and sign and point) of a currency text, separators removed. -/
def currencyChars (s : String) : List Char :=
  s.data.filter fun c => ¬ (c = '$' ∨ c = ',')

/-- Leading minus sign of a currency text. -/
def currencyNeg (s : String) : Bool := (currencyChars s).take 1 = ['-']

/-- Digits and point of a currency text, sign removed. -/
def currencyCore (s : String) : List Char :=
  if currencyNeg s then (currencyChars s).drop 1 else currencyChars s

/-- Integer-part value of a currency text. -/
def currencyIntN (s : String) : Nat :=
  digitsToNat ((currencyCore s).takeWhile fun c => ¬ c = '.')

/-- Fractional digits of a currency text. -/
def currencyFrac (s : String) : List Char :=
  ((currencyCore s).dropWhile fun c => ¬ c = '.').drop 1

def parseCurrency (s : String) : ℚ :=
  (if currencyNeg s then -1 else 1) *
    ((currencyIntN s : ℚ) +
      (digitsToNat (currencyFrac s) : ℚ) / (10 : ℚ) ^ (currencyFrac s).length)

/-- The numeric value of one operand cell. -/
def cellNumber : Cell → ℚ
  | .num q => q
  | .str s => parseCurrency s
  | .mulFormula _ _ _ _ => 0

/-- The coerced value of the operand cell at column `c` and 1-based Excel
row `r` of the rendered sheet (data row `r - 2`; Excel row 1 is the header
row). -/
def operandValue (sheetRows : List (List Cell)) (c r : Nat) : ℚ :=
  match (sheetRows[r - 2]?).bind fun cells => cells[c]? with
  | some cell => cellNumber cell
  | none => 0

/-- The value the consuming spreadsheet application computes for a cell of
the rendered sheet: the product formula fetches its two operand cells and
multiplies their coerced values. -/
def evalTotal (sheetRows : List (List Cell)) : Cell → ℚ
  | .mulFormula c1 r1 c2 r2 =>
      operandValue sheetRows c1 r1 * operandValue sheetRows c2 r2
  | .num q => q
  | .str s => parseCurrency s

/-- Invariant of the longest-match scan: the best block found so far starts
inside both sequences and its size is at most the common-prefix length of
the suffixes at its start (it is exactly that length for every updated
block, and 0 for the initial state). -/
def flmInv (a b : List Char) (s : Nat × Nat × Nat) : Prop :=
  s.1 ≤ a.length ∧ s.2.1 ≤ b.length ∧ s.2.2 ≤ lcp (a.drop s.1) (b.drop s.2.1)

/-- No two canonical names resolve to the same raw column. -/
def colMapInjective (cols : List String) : Prop :=
  ∀ p ∈ colMap cols, ∀ q ∈ colMap cols, p.2 = q.2 → p.1 = q.1

/-- Sanity check: the exact canonical header reconciles to itself. -/
theorem reconcile_exact_header : reconcile expected_cols = Except.ok expected_cols := by
  rfl

/-- Sanity check: column indexes of lines 107-109 evaluate to D, E, F. -/
theorem column_indexes : (qty_col, usd_col, total_col_idx) = (3, 4, 5) := by rfl

/-- Sanity check: the formula text of line 129 for the first data row. -/
theorem formula_text_row2 : Cell.text (Cell.mulFormula qty_col 2 usd_col 2) = "=D2*E2" := by
  rfl

/-- Sanity check: the currency format of lines 78, 81 and 120 on 1398.06,
matching the spec's example. -/
theorem fmtUSD_price : fmtUSD (mkRat 139806 100) = "$1,398.06" := by rfl

/-- Sanity check: grouping of a seven-digit amount. -/
theorem fmtUSD_grouping : fmtUSD (mkRat 1234567891 1000) = "$1,234,567.89" := by rfl

/-- Sanity check: the Excel-style coercion recovers the written currency
text of the spec's example. -/
theorem parseCurrency_price : parseCurrency "$1,398.06" = 139806 / 100 := by
  simp only [parseCurrency, show currencyNeg "$1,398.06" = false from rfl,
    show currencyIntN "$1,398.06" = 1398 from rfl,
    show currencyFrac "$1,398.06" = ['0', '6'] from rfl,
    show digitsToNat ['0', '6'] = 6 from rfl]
  norm_num

theorem lcp_le_left : ∀ a b : List Char, lcp a b ≤ a.length := by
  intro a
  induction a with
  | nil => intro b; cases b <;> simp [lcp]
  | cons x xs ih =>
    intro b
    cases b with
    | nil => simp [lcp]
    | cons y ys =>
      simp only [lcp, List.length_cons]
      split
      · exact Nat.succ_le_succ (ih ys)
      · exact Nat.zero_le _

theorem lcp_le_right : ∀ a b : List Char, lcp a b ≤ b.length := by
  intro a
  induction a with
  | nil => intro b; cases b <;> simp [lcp]
  | cons x xs ih =>
    intro b
    cases b with
    | nil => simp [lcp]
    | cons y ys =>
      simp only [lcp, List.length_cons]
      split
      · exact Nat.succ_le_succ (ih ys)
      · exact Nat.zero_le _

theorem lcp_self : ∀ a : List Char, lcp a a = a.length := by
  intro a
  induction a with
  | nil => rfl
  | cons x xs ih => simp [lcp, ih]

theorem take_eq_of_le_lcp :
    ∀ (k : Nat) (a b : List Char), k ≤ lcp a b → a.take k = b.take k := by
  intro k
  induction k with
  | zero => intro a b _; simp
  | succ k ih =>
    intro a b h
    cases a with
    | nil => simp [lcp] at h
    | cons x xs =>
      cases b with
      | nil => simp [lcp] at h
      | cons y ys =>
        simp only [lcp] at h
        by_cases hxy : x = y
        · rw [if_pos hxy] at h
          simp only [List.take_succ_cons, hxy]
          rw [ih xs ys (Nat.le_of_succ_le_succ h)]
        · rw [if_neg hxy] at h
          omega

theorem flmInv_step {a b : List Char} {i j : Nat} {s : Nat × Nat × Nat}
    (hi : i ≤ a.length) (hj : j ≤ b.length) (hs : flmInv a b s) :
    flmInv a b (flmStep a b i s j) := by
  unfold flmStep
  dsimp only
  split
  · exact ⟨hi, hj, Nat.le_refl _⟩
  · exact hs

theorem flmInv_foldl {a b : List Char} {i : Nat} (hi : i ≤ a.length) :
    ∀ (js : List Nat), (∀ j ∈ js, j ≤ b.length) →
      ∀ s, flmInv a b s → flmInv a b (js.foldl (flmStep a b i) s) := by
  intro js
  induction js with
  | nil => intro _ s hs; exact hs
  | cons j js ih =>
    intro hjs s hs
    rw [List.foldl_cons]
    exact ih (fun x hx => hjs x (List.mem_cons_of_mem _ hx))
      _ (flmInv_step hi (hjs j (List.mem_cons_self _ _)) hs)

theorem flmInv_inner {a b : List Char} {i : Nat} (hi : i ≤ a.length)
    {s : Nat × Nat × Nat} (hs : flmInv a b s) : flmInv a b (flmInner a b i s) := by
  unfold flmInner
  refine flmInv_foldl hi _ (fun j hj => ?_) s hs
  exact Nat.le_of_lt_succ (List.mem_range.mp hj)

theorem flmInv_flm (a b : List Char) : flmInv a b (flm a b) := by
  unfold flm
  have main : ∀ (is : List Nat), (∀ i ∈ is, i ≤ a.length) →
      ∀ s, flmInv a b s →
        flmInv a b (is.foldl (fun s i => flmInner a b i s) s) := by
    intro is
    induction is with
    | nil => intro _ s hs; exact hs
    | cons i is ih =>
      intro his s hs
      rw [List.foldl_cons]
      exact ih (fun x hx => his x (List.mem_cons_of_mem _ hx))
        _ (flmInv_inner (his i (List.mem_cons_self _ _)) hs)
  refine main _ (fun i hi => Nat.le_of_lt_succ (List.mem_range.mp hi)) _ ?_
  exact ⟨Nat.zero_le _, Nat.zero_le _, Nat.zero_le _⟩

theorem flmStep_k_mono {a b : List Char} {i j : Nat} {s : Nat × Nat × Nat} :
    s.2.2 ≤ (flmStep a b i s j).2.2 := by
  unfold flmStep
  dsimp only
  split
  · next h => exact Nat.le_of_lt h
  · exact Nat.le_refl _

theorem foldl_flmStep_k_mono {a b : List Char} {i : Nat} :
    ∀ (js : List Nat) (s : Nat × Nat × Nat),
      s.2.2 ≤ (js.foldl (flmStep a b i) s).2.2 := by
  intro js
  induction js with
  | nil => intro s; exact Nat.le_refl _
  | cons j js ih =>
    intro s
    rw [List.foldl_cons]
    exact Nat.le_trans flmStep_k_mono (ih _)

theorem flmInner_k_mono {a b : List Char} {i : Nat} {s : Nat × Nat × Nat} :
    s.2.2 ≤ (flmInner a b i s).2.2 := foldl_flmStep_k_mono _ _

theorem foldl_flmInner_k_mono {a b : List Char} :
    ∀ (is : List Nat) (s : Nat × Nat × Nat),
      s.2.2 ≤ (is.foldl (fun s i => flmInner a b i s) s).2.2 := by
  intro is
  induction is with
  | nil => intro s; exact Nat.le_refl _
  | cons i is ih =>
    intro s
    rw [List.foldl_cons]
    exact Nat.le_trans flmInner_k_mono (ih _)

theorem flm_k_ge_lcp (a b : List Char) : lcp a b ≤ (flm a b).2.2 := by
  have hfirst : lcp a b ≤ (flmStep a b 0 (0, 0, 0) 0).2.2 := by
    unfold flmStep
    simp only [List.drop_zero]
    split
    · exact Nat.le_refl _
    · next h => exact Nat.le_of_not_lt h
  unfold flm
  rw [List.range_succ_eq_map, List.foldl_cons]
  refine Nat.le_trans ?_ (foldl_flmInner_k_mono _ _)
  unfold flmInner
  rw [List.range_succ_eq_map, List.foldl_cons]
  exact Nat.le_trans hfirst (foldl_flmStep_k_mono _ _)

theorem matchTotalF_nil_nil : ∀ f, matchTotalF f [] [] = 0 := by
  intro f
  cases f with
  | zero => rfl
  | succ f => rfl

theorem matchTotalF_le_left : ∀ (f : Nat) (a b : List Char), matchTotalF f a b ≤ a.length := by
  intro f
  induction f with
  | zero => intro a b; exact Nat.zero_le _
  | succ f ih =>
    intro a b
    rw [matchTotalF]
    split
    · exact Nat.zero_le _
    · next hk =>
      obtain ⟨hi, hj, hklcp⟩ := flmInv_flm a b
      have hka : (flm a b).2.2 ≤ a.length - (flm a b).1 := by
        refine Nat.le_trans hklcp (Nat.le_trans (lcp_le_left _ _) ?_)
        rw [List.length_drop]
      have h1 := ih (a.take (flm a b).1) (b.take (flm a b).2.1)
      have h2 := ih (a.drop ((flm a b).1 + (flm a b).2.2))
        (b.drop ((flm a b).2.1 + (flm a b).2.2))
      rw [List.length_take] at h1
      rw [List.length_drop] at h2
      omega

theorem matchTotalF_le_right : ∀ (f : Nat) (a b : List Char), matchTotalF f a b ≤ b.length := by
  intro f
  induction f with
  | zero => intro a b; exact Nat.zero_le _
  | succ f ih =>
    intro a b
    rw [matchTotalF]
    split
    · exact Nat.zero_le _
    · next hk =>
      obtain ⟨hi, hj, hklcp⟩ := flmInv_flm a b
      have hkb : (flm a b).2.2 ≤ b.length - (flm a b).2.1 := by
        refine Nat.le_trans hklcp (Nat.le_trans (lcp_le_right _ _) ?_)
        rw [List.length_drop]
      have h1 := ih (a.take (flm a b).1) (b.take (flm a b).2.1)
      have h2 := ih (a.drop ((flm a b).1 + (flm a b).2.2))
        (b.drop ((flm a b).2.1 + (flm a b).2.2))
      rw [List.length_take] at h1
      rw [List.length_drop] at h2
      omega

theorem matchTotalF_full :
    ∀ (f : Nat) (a b : List Char), matchTotalF f a b = a.length →
      matchTotalF f a b = b.length → a = b := by
  intro f
  induction f with
  | zero =>
    intro a b h1 h2
    rw [matchTotalF] at h1 h2
    rw [List.eq_nil_of_length_eq_zero h1.symm, List.eq_nil_of_length_eq_zero h2.symm]
  | succ f ih =>
    intro a b h1 h2
    rw [matchTotalF] at h1 h2
    by_cases hk : (flm a b).2.2 = 0
    · rw [if_pos hk] at h1 h2
      rw [List.eq_nil_of_length_eq_zero h1.symm, List.eq_nil_of_length_eq_zero h2.symm]
    · rw [if_neg hk] at h1 h2
      obtain ⟨hi, hj, hklcp⟩ := flmInv_flm a b
      have hka : (flm a b).2.2 ≤ a.length - (flm a b).1 := by
        refine Nat.le_trans hklcp (Nat.le_trans (lcp_le_left _ _) ?_)
        rw [List.length_drop]
      have hkb : (flm a b).2.2 ≤ b.length - (flm a b).2.1 := by
        refine Nat.le_trans hklcp (Nat.le_trans (lcp_le_right _ _) ?_)
        rw [List.length_drop]
      have bl1 := matchTotalF_le_left f (a.take (flm a b).1) (b.take (flm a b).2.1)
      have bl2 := matchTotalF_le_right f (a.take (flm a b).1) (b.take (flm a b).2.1)
      have br1 := matchTotalF_le_left f (a.drop ((flm a b).1 + (flm a b).2.2))
        (b.drop ((flm a b).2.1 + (flm a b).2.2))
      have br2 := matchTotalF_le_right f (a.drop ((flm a b).1 + (flm a b).2.2))
        (b.drop ((flm a b).2.1 + (flm a b).2.2))
      rw [List.length_take] at bl1 bl2
      rw [List.length_drop] at br1 br2
      have hij : (flm a b).1 = (flm a b).2.1 := by omega
      have hLtake : matchTotalF f (a.take (flm a b).1) (b.take (flm a b).2.1) =
          (a.take (flm a b).1).length := by
        rw [List.length_take]
        omega
      have hRtake : matchTotalF f (a.take (flm a b).1) (b.take (flm a b).2.1) =
          (b.take (flm a b).2.1).length := by
        rw [List.length_take]
        omega
      have htake := ih _ _ hLtake hRtake
      have hLdrop : matchTotalF f (a.drop ((flm a b).1 + (flm a b).2.2))
          (b.drop ((flm a b).2.1 + (flm a b).2.2)) =
          (a.drop ((flm a b).1 + (flm a b).2.2)).length := by
        rw [List.length_drop]
        omega
      have hRdrop : matchTotalF f (a.drop ((flm a b).1 + (flm a b).2.2))
          (b.drop ((flm a b).2.1 + (flm a b).2.2)) =
          (b.drop ((flm a b).2.1 + (flm a b).2.2)).length := by
        rw [List.length_drop]
        omega
      have hdrop := ih _ _ hLdrop hRdrop
      have hmid := take_eq_of_le_lcp (flm a b).2.2 _ _ hklcp
      have ha : a = a.take (flm a b).1 ++
          ((a.drop (flm a b).1).take (flm a b).2.2 ++
            a.drop ((flm a b).1 + (flm a b).2.2)) := by
        conv_lhs => rw [← List.take_append_drop (flm a b).1 a]
        congr 1
        conv_lhs => rw [← List.take_append_drop (flm a b).2.2 (a.drop (flm a b).1)]
        congr 1
        rw [List.drop_drop, Nat.add_comm]
      have hb : b = b.take (flm a b).2.1 ++
          ((b.drop (flm a b).2.1).take (flm a b).2.2 ++
            b.drop ((flm a b).2.1 + (flm a b).2.2)) := by
        conv_lhs => rw [← List.take_append_drop (flm a b).2.1 b]
        congr 1
        conv_lhs => rw [← List.take_append_drop (flm a b).2.2 (b.drop (flm a b).2.1)]
        congr 1
        rw [List.drop_drop, Nat.add_comm]
      rw [htake, hmid, hdrop] at ha
      exact ha.trans hb.symm

theorem matchTotal_self (a : List Char) : matchTotal a a = a.length := by
  cases a with
  | nil => rfl
  | cons x xs =>
    have hlen : 0 < (x :: xs).length := by simp
    obtain ⟨hi, hj, hklcp⟩ := flmInv_flm (x :: xs) (x :: xs)
    have hge := flm_k_ge_lcp (x :: xs) (x :: xs)
    rw [lcp_self] at hge
    have hdropbound : lcp ((x :: xs).drop (flm (x :: xs) (x :: xs)).1)
        ((x :: xs).drop (flm (x :: xs) (x :: xs)).2.1) ≤
        (x :: xs).length - (flm (x :: xs) (x :: xs)).1 := by
      refine Nat.le_trans (lcp_le_left _ _) ?_
      rw [List.length_drop]
    have hi0 : (flm (x :: xs) (x :: xs)).1 = 0 := by omega
    have hdropbound2 : lcp ((x :: xs).drop (flm (x :: xs) (x :: xs)).1)
        ((x :: xs).drop (flm (x :: xs) (x :: xs)).2.1) ≤
        (x :: xs).length - (flm (x :: xs) (x :: xs)).2.1 := by
      refine Nat.le_trans (lcp_le_right _ _) ?_
      rw [List.length_drop]
    have hj0 : (flm (x :: xs) (x :: xs)).2.1 = 0 := by omega
    have hkmax : (flm (x :: xs) (x :: xs)).2.2 = (x :: xs).length := by
      rw [hi0, hj0] at hklcp
      simp only [List.drop_zero] at hklcp
      rw [lcp_self] at hklcp
      omega
    have hfuel : (x :: xs).length + (x :: xs).length =
        ((x :: xs).length + (x :: xs).length - 1) + 1 := by
      simp only [List.length_cons]
      omega
    rw [matchTotal, hfuel, matchTotalF]
    rw [if_neg (by omega), hi0, hj0, hkmax]
    simp only [List.take_zero, Nat.zero_add, List.drop_length, matchTotalF_nil_nil]
    omega

theorem matchTotal_lt_of_ne {x w : List Char} (h : x ≠ w) :
    2 * matchTotal x w < x.length + w.length := by
  have h1 := matchTotalF_le_left (x.length + w.length) x w
  have h2 := matchTotalF_le_right (x.length + w.length) x w
  rw [matchTotal]
  by_cases heq : 2 * matchTotalF (x.length + w.length) x w = x.length + w.length
  · exfalso
    exact h (matchTotalF_full (x.length + w.length) x w (by omega) (by omega))
  · omega

theorem stringDataEq : ∀ {x y : String}, x.data = y.data → x = y := by
  intro x y h
  cases x
  cases y
  exact congrArg String.mk h

theorem listGt_self : ∀ l : List Char, listGt l l = false := by
  intro l
  induction l with
  | nil => rfl
  | cons x xs ih => rw [listGt, if_neg (lt_irrefl _), if_neg (lt_irrefl _), ih]

theorem strGtB_self (x : String) : strGtB x x = false := listGt_self x.data

theorem better_self_right {x r : String} (hr : r.data ≠ []) : better x r r = false := by
  have hrl : 0 < r.data.length := List.length_pos.mpr hr
  by_cases hxr : x = r
  · subst hxr
    simp [better, strGtB_self]
  · have hlt : 2 * matchTotal x.data r.data < x.data.length + r.data.length :=
      matchTotal_lt_of_ne fun hh => hxr (stringDataEq hh)
    have hprod : matchTotal x.data r.data * ratioDen r r <
        matchTotal r.data r.data * ratioDen x r := by
      rw [matchTotal_self]
      simp only [ratioDen]
      calc matchTotal x.data r.data * (r.data.length + r.data.length)
          = (2 * matchTotal x.data r.data) * r.data.length := by ring
        _ < (x.data.length + r.data.length) * r.data.length :=
            (mul_lt_mul_right hrl).mpr hlt
        _ = r.data.length * (x.data.length + r.data.length) := by ring
    simp only [better]
    rw [if_neg (by omega), if_neg (by omega)]

theorem better_true_of_ne {r y : String} (hr : r.data ≠ []) (hy : y ≠ r) :
    better r y r = true := by
  have hrl : 0 < r.data.length := List.length_pos.mpr hr
  have hlt : 2 * matchTotal y.data r.data < y.data.length + r.data.length :=
    matchTotal_lt_of_ne fun hh => hy (stringDataEq hh)
  have hprod : matchTotal y.data r.data * ratioDen r r <
      matchTotal r.data r.data * ratioDen y r := by
    rw [matchTotal_self]
    simp only [ratioDen]
    calc matchTotal y.data r.data * (r.data.length + r.data.length)
        = (2 * matchTotal y.data r.data) * r.data.length := by ring
      _ < (y.data.length + r.data.length) * r.data.length :=
          (mul_lt_mul_right hrl).mpr hlt
      _ = r.data.length * (y.data.length + r.data.length) := by ring
  simp only [better]
  rw [if_pos hprod]

theorem gcmStep_keep {r x : String} (hr : r.data ≠ []) : gcmStep r (some r) x = some r := by
  unfold gcmStep
  split
  · show (if better x r r = true then some x else some r) = some r
    rw [better_self_right hr]
    simp
  · rfl

theorem gcmStep_reach {r : String} (hr : r.data ≠ []) :
    ∀ s : Option String, gcmStep r s r = some r := by
  intro s
  have hcut : 3 * ratioDen r r ≤ 10 * matchTotal r.data r.data := by
    rw [matchTotal_self]
    simp only [ratioDen]
    omega
  cases s with
  | none =>
    unfold gcmStep
    rw [if_pos hcut]
  | some y =>
    unfold gcmStep
    rw [if_pos hcut]
    by_cases hy : y = r
    · rw [hy]
      show (if better r r r = true then some r else some r) = some r
      split <;> rfl
    · show (if better r y r = true then some r else some y) = some r
      rw [better_true_of_ne hr hy]
      simp

theorem foldl_gcm_keep {r : String} (hr : r.data ≠ []) :
    ∀ l : List String, l.foldl (gcmStep r) (some r) = some r := by
  intro l
  induction l with
  | nil => rfl
  | cons x xs ih => rw [List.foldl_cons, gcmStep_keep hr, ih]

theorem getCloseMatch_self {r : String} {cols : List String} (hr : r.data ≠ [])
    (h : r ∈ cols) : getCloseMatch r cols = some r := by
  obtain ⟨s, t, rfl⟩ := List.append_of_mem h
  unfold getCloseMatch
  rw [List.foldl_append, List.foldl_cons, gcmStep_reach hr, foldl_gcm_keep hr]

theorem lookup_mem : ∀ (cm : List (String × String)) (x v : String),
    cm.lookup x = some v → (x, v) ∈ cm := by
  intro cm
  induction cm with
  | nil => intro x v h; simp [List.lookup] at h
  | cons p ps ih =>
    intro x v h
    rw [List.lookup] at h
    by_cases hk : (x == p.1) = true
    · rw [hk] at h
      have hx : x = p.1 := eq_of_beq hk
      have hv : p.2 = v := by injection h
      have hxp : (x, v) = p := by
        rw [hx, ← hv]
      exact List.mem_cons.mpr (Or.inl hxp)
    · rw [Bool.not_eq_true] at hk
      rw [hk] at h
      exact List.mem_cons_of_mem _ (ih x v h)

theorem mem_lookup_isSome : ∀ (cm : List (String × String)) (x v : String),
    (x, v) ∈ cm → (cm.lookup x).isSome := by
  intro cm
  induction cm with
  | nil => intro x v h; simp at h
  | cons p ps ih =>
    intro x v h
    rw [List.lookup]
    by_cases hk : (x == p.1) = true
    · rw [hk]
      rfl
    · rw [Bool.not_eq_true] at hk
      rw [hk]
      rcases List.mem_cons.mp h with h1 | h2
      · exfalso
        rw [← h1] at hk
        simp at hk
      · exact ih x v h2

theorem colMap_mem {cols : List String} {c m : String} (h : (c, m) ∈ colMap cols) :
    c ∈ expected_cols ∧ getCloseMatch c cols = some m := by
  obtain ⟨a, ha, hfa⟩ := List.mem_filterMap.mp h
  obtain ⟨x, hx, hxc⟩ := Option.map_eq_some'.mp hfa
  obtain ⟨rfl, rfl⟩ := Prod.mk.injEq .. |>.mp hxc
  exact ⟨ha, hx⟩

theorem filterMap_full {α β : Type} (f : α → Option β) :
    ∀ l : List α, (l.filterMap f).length = l.length → ∀ x ∈ l, (f x).isSome := by
  intro l
  induction l with
  | nil => intro _ x hx; simp at hx
  | cons a l ih =>
    intro h x hx
    cases hfa : f a with
    | none =>
      exfalso
      rw [List.filterMap_cons, hfa] at h
      have := List.length_filterMap_le f l
      simp at h
      omega
    | some b =>
      rw [List.filterMap_cons, hfa] at h
      simp only [List.length_cons] at h
      rcases List.mem_cons.mp hx with h1 | h2
      · rw [h1, hfa]
        rfl
      · exact ih (by omega) x h2

theorem colMap_complete {cols : List String}
    (h : (colMap cols).length = expected_cols.length) :
    ∀ c ∈ expected_cols, ∃ m, getCloseMatch c cols = some m := by
  intro c hc
  have := filterMap_full _ expected_cols h c hc
  obtain ⟨p, hp⟩ := Option.isSome_iff_exists.mp this
  obtain ⟨x, hx, _⟩ := Option.map_eq_some'.mp hp
  exact ⟨x, hx⟩

theorem expected_nonempty : ∀ c ∈ expected_cols, c.data ≠ [] := by decide

theorem reconcile_ok {cols renamed : List String}
    (h : reconcile cols = Except.ok renamed) :
    (colMap cols).length = expected_cols.length ∧
      renamed = renameCols cols (colMap cols) ∧
      ∀ c ∈ expected_cols, c ∈ renamed := by
  rw [reconcile] at h
  by_cases hlen : (colMap cols).length ≠ expected_cols.length
  · rw [if_pos hlen] at h
    exact absurd h (by simp)
  · rw [if_neg hlen] at h
    by_cases hmiss : (missingCols (renameCols cols (colMap cols))).isEmpty
    · rw [if_pos hmiss] at h
      have hre : renamed = renameCols cols (colMap cols) := by
        injection h with h
        exact h.symm
      refine ⟨by omega, hre, ?_⟩
      intro c hc
      have hnil : missingCols (renameCols cols (colMap cols)) = [] :=
        List.isEmpty_iff.mp hmiss
      simp only [missingCols] at hnil
      have h2 := List.filter_eq_nil_iff.mp hnil c hc
      rw [hre]
      simpa using h2
    · rw [if_neg hmiss] at h
      exact absurd h (by simp)

theorem mem_renamed {cols : List String}
    (hcomp : (colMap cols).length = expected_cols.length) {c : String}
    (hc : c ∈ expected_cols) (hmem : c ∈ renameCols cols (colMap cols)) :
    c ∈ cols ∧ getCloseMatch c cols = some c := by
  rw [renameCols] at hmem
  obtain ⟨x, hxcols, hrn⟩ := List.mem_map.mp hmem
  rcases hlk : (colMap cols).lookup x with _ | v
  · rw [hlk] at hrn
    simp only at hrn
    obtain ⟨m, hm⟩ := colMap_complete hcomp c hc
    have hmemcm : (c, m) ∈ colMap cols := by
      refine List.mem_filterMap.mpr ⟨c, hc, ?_⟩
      rw [hm]
      rfl
    have hsome := mem_lookup_isSome _ _ _ hmemcm
    rw [← hrn, hlk] at hsome
    simp at hsome
  · rw [hlk] at hrn
    simp only at hrn
    have hmemcm := lookup_mem _ _ _ hlk
    rw [hrn] at hmemcm
    obtain ⟨hxe, hgx⟩ := colMap_mem hmemcm
    have hself := getCloseMatch_self (expected_nonempty x hxe) hxcols
    rw [hself] at hgx
    have hxc : x = c := by injection hgx
    rw [← hxc]
    exact ⟨hxcols, hself⟩

theorem adjust_strip {c : String} (h : c ∈ adjust_codes) : pyStrip c = c := by
  simp only [adjust_codes, List.mem_cons, List.mem_singleton] at h
  rcases h with h | h
  · rw [h]
    rfl
  · rcases h with h | h
    · rw [h]
      rfl
    · simp at h

theorem renderRowsFrom_length :
    ∀ (cs : List Corrected) (i : Nat), (renderRowsFrom i cs).length = cs.length := by
  intro cs
  induction cs with
  | nil => intro i; rfl
  | cons c cs ih =>
    intro i
    rw [renderRowsFrom]
    simp [ih]

theorem renderRowsFrom_getElem? :
    ∀ (cs : List Corrected) (i n : Nat),
      (renderRowsFrom i cs)[n]? = (cs[n]?).map fun c => renderDataRow (i + n) c := by
  intro cs
  induction cs with
  | nil => intro i n; simp [renderRowsFrom]
  | cons c cs ih =>
    intro i n
    cases n with
    | zero => simp [renderRowsFrom]
    | succ n =>
      rw [renderRowsFrom]
      simp only [List.getElem?_cons_succ]
      rw [ih (i + 1) n]
      have harith : i + 1 + n = i + (n + 1) := by omega
      rw [harith]

theorem operandValue_eq {S : List (List Cell)} {c r : Nat} {cell : Cell}
    (h : (S[r - 2]?).bind (fun cells => cells[c]?) = some cell) :
    operandValue S c r = cellNumber cell := by
  simp only [operandValue, h]

theorem reconcile_ok_inj {cols renamed : List String}
    (hok : reconcile cols = Except.ok renamed) :
    (∀ c ∈ expected_cols, c ∈ cols) ∧ colMapInjective cols := by
  obtain ⟨hlen, hre, hall⟩ := reconcile_ok hok
  have key : ∀ c ∈ expected_cols, c ∈ cols ∧ getCloseMatch c cols = some c := by
    intro c hc
    refine mem_renamed hlen hc ?_
    rw [← hre]
    exact hall c hc
  constructor
  · intro c hc
    exact (key c hc).1
  · intro p hp q hq hpq
    obtain ⟨hpe, hpg⟩ := colMap_mem hp
    obtain ⟨hqe, hqg⟩ := colMap_mem hq
    have h1 := (key p.1 hpe).2
    rw [hpg] at h1
    have e1 : p.2 = p.1 := by injection h1
    have h2 := (key q.1 hqe).2
    rw [hqg] at h2
    have e2 : q.2 = q.1 := by injection h2
    rw [← e1, ← e2, hpq]

/-- C1: the claim says that whenever all five canonical names fuzzy-match
some raw column (here the header "warehouse, Code, Eng Name, Quantity,
Cost", whose first column matches "Warehouse" with ratio 16/18), the
reconciler builds a complete five-entry mapping, renames the matched raw
columns to the canonical names, and row processing proceeds.  On the code
the mapping is complete, but `df.rename(columns=col_map)` receives the
mapping oriented canonical-to-raw, so the rename leaves the header
unchanged ("warehouse" is never renamed) and the selection
`df[["Warehouse", ...]]` on line 41 raises a KeyError: the run aborts for
every table whose matched columns do not already bear the canonical names
exactly. -/
theorem c1_code_bug_eval :
    (colMap ["warehouse", "Code", "Eng Name", "Quantity", "Cost"]).length =
        expected_cols.length ∧
      ("Warehouse", "warehouse") ∈
        colMap ["warehouse", "Code", "Eng Name", "Quantity", "Cost"] ∧
      renameCols ["warehouse", "Code", "Eng Name", "Quantity", "Cost"]
          (colMap ["warehouse", "Code", "Eng Name", "Quantity", "Cost"]) =
        ["warehouse", "Code", "Eng Name", "Quantity", "Cost"] ∧
      ∀ rows : List Row,
        pipeline ["warehouse", "Code", "Eng Name", "Quantity", "Cost"] rows =
          Except.error (PipeError.keyError ["Warehouse"]) := by
  refine ⟨by rfl, by decide, by rfl, fun rows => ?_⟩
  have hrec : reconcile ["warehouse", "Code", "Eng Name", "Quantity", "Cost"] =
      Except.error (PipeError.keyError ["Warehouse"]) := by rfl
  simp only [pipeline, hrec]

/-- C2 as stated is false: the claim applies cost override A to every row
whose code is "029813261" or "NA029813261" after stripping surrounding
whitespace, but line 54 (`df["Code"].isin(adjust_codes)`) and line 77
(`code in adjust_codes`) compare the unstripped code, so the row with code
" 029813261" (stripped member of the set, cost 500) keeps its cost and an
empty note. -/
theorem c2_counterexample :
    pyStrip " 029813261" ∈ adjust_codes ∧
      usdEach ⟨"Main", " 029813261", "w", 3, 500⟩ = 500 ∧
      usdEach ⟨"Main", " 029813261", "w", 3, 500⟩ ≠ price_029813 ∧
      noteOf ⟨"Main", " 029813261", "w", 3, 500⟩ = "" := by
  have hu : usdEach ⟨"Main", " 029813261", "w", 3, 500⟩ = 500 := by
    rw [usdEach, if_neg (by decide), if_neg (by decide)]
  refine ⟨by decide, hu, ?_, ?_⟩
  · rw [hu]
    rw [price_029813]
    norm_num
  · rw [noteOf, if_neg (by decide), if_neg (by decide)]

/-- C2 (amended): for every row whose code — exactly as stored, without
stripping — is "029813261" or "NA029813261", the corrector sets unit cost
to 1398.06 and the note to "Compiere previously showed $" followed by the
original cost formatted as currency with thousands separators and two
decimals; this holds regardless of warehouse and quantity. -/
theorem c2_amended (r : Row) (h : r.code ∈ adjust_codes) :
    usdEach r = price_029813 ∧
      noteOf r = "Compiere previously showed " ++ fmtUSD r.cost := by
  have hne : pyStrip r.code ≠ "91V2NU000001" := by
    rw [adjust_strip h]
    intro hc
    rw [hc] at h
    exact absurd h (by decide)
  constructor
  · rw [usdEach, if_neg hne, if_pos h]
  · rw [noteOf, if_pos h]

/-- C2 witness: the amended claim at a concrete override-A row. -/
theorem c2_witness :
    usdEach ⟨"Main", "029813261", "w", 3, 500⟩ = price_029813 ∧
      noteOf ⟨"Main", "029813261", "w", 3, 500⟩ =
        "Compiere previously showed " ++ fmtUSD (500 : ℚ) :=
  c2_amended ⟨"Main", "029813261", "w", 3, 500⟩ (by decide)

/-- C3: for every row whose warehouse is exactly one of the four special
warehouses, the rendered total cell is the literal string "$0.00"
regardless of quantity and unit cost, while the USD Each cell still shows
the (possibly overridden) unit cost as currency text and the Notes cell
still carries the note. -/
theorem c3_zero_total (r : Row) (i : Nat) (h : r.warehouse ∈ special_warehouses) :
    (renderDataRow i (correctRow r))[5]? = some (Cell.str "$0.00") ∧
      (renderDataRow i (correctRow r))[4]? = some (Cell.str (fmtUSD (usdEach r))) ∧
      (renderDataRow i (correctRow r))[6]? = some (Cell.str (noteOf r)) := by
  have htot : (correctRow r).total = "$0.00" := by
    show totalMark r = "$0.00"
    rw [totalMark, if_pos h]
  refine ⟨?_, rfl, rfl⟩
  have hfive : (renderDataRow i (correctRow r))[5]? =
      some (if (correctRow r).total = "$0.00" then Cell.str "$0.00"
        else Cell.mulFormula qty_col (i + 2) usd_col (i + 2)) := rfl
  rw [hfive, if_pos htot]

/-- C3 witness: a special-warehouse row that also receives cost override A
still renders total "$0.00" next to the overridden cost and its note. -/
theorem c3_witness :
    (renderDataRow 0 (correctRow ⟨"INVOICED", "029813261", "w", 5, 200⟩))[5]? =
        some (Cell.str "$0.00") ∧
      (renderDataRow 0 (correctRow ⟨"INVOICED", "029813261", "w", 5, 200⟩))[4]? =
        some (Cell.str (fmtUSD (usdEach ⟨"INVOICED", "029813261", "w", 5, 200⟩))) ∧
      (renderDataRow 0 (correctRow ⟨"INVOICED", "029813261", "w", 5, 200⟩))[6]? =
        some (Cell.str (noteOf ⟨"INVOICED", "029813261", "w", 5, 200⟩)) :=
  c3_zero_total ⟨"INVOICED", "029813261", "w", 5, 200⟩ 0 (by decide)

/-- C7: for every row whose stripped code is "91V2NU000001" (and whose code
is not in the override-A set), unit cost becomes 7752.42 and the note is
"Compiere is showing a cost of $" plus the original cost as currency plus
"; See DONA-PO-10001758". -/
theorem c7_second_override (r : Row) (h : pyStrip r.code = "91V2NU000001")
    (hA : r.code ∉ adjust_codes) :
    usdEach r = price_91v2 ∧
      noteOf r = "Compiere is showing a cost of " ++ fmtUSD r.cost ++
        "; See DONA-PO-10001758" := by
  constructor
  · rw [usdEach, if_pos h]
  · rw [noteOf, if_neg hA, if_pos h]

/-- C7 witness: the override-B rule at a concrete row whose code carries
surrounding whitespace. -/
theorem c7_witness :
    usdEach ⟨"Main", " 91V2NU000001 ", "w", 3, 500⟩ = price_91v2 ∧
      noteOf ⟨"Main", " 91V2NU000001 ", "w", 3, 500⟩ =
        "Compiere is showing a cost of " ++ fmtUSD (500 : ℚ) ++
          "; See DONA-PO-10001758" :=
  c7_second_override ⟨"Main", " 91V2NU000001 ", "w", 3, 500⟩ (by decide) (by decide)

/-- C9: a row whose stripped code matches neither override keeps its
original cost and an empty note; the name is passed through unmodified, the
Original Cost backup of line 45 preserves the input cost unmutated, and the
notes of overridden rows are formatted from that backup. -/
theorem c9_frame (r : Row) :
    (pyStrip r.code ∉ adjust_codes → pyStrip r.code ≠ "91V2NU000001" →
        usdEach r = r.cost ∧ noteOf r = "") ∧
      (correctRow r).name = r.name ∧
      (correctRow r).origCost = r.cost ∧
      (r.code ∈ adjust_codes →
        noteOf r = "Compiere previously showed " ++ fmtUSD (correctRow r).origCost) := by
  refine ⟨?_, rfl, rfl, ?_⟩
  · intro hA hB
    have hA0 : r.code ∉ adjust_codes := by
      intro hmem
      apply hA
      rw [adjust_strip hmem]
      exact hmem
    constructor
    · rw [usdEach, if_neg hB, if_neg hA0]
    · rw [noteOf, if_neg hA0, if_neg hB]
  · intro hmem
    rw [noteOf, if_pos hmem]
    rfl

/-- C9 witness: a row matching neither override. -/
theorem c9_witness :
    usdEach ⟨"Main", "ZZZ", "w", 3, 500⟩ = (500 : ℚ) ∧
      noteOf ⟨"Main", "ZZZ", "w", 3, 500⟩ = "" :=
  (c9_frame ⟨"Main", "ZZZ", "w", 3, 500⟩).1 (by decide) (by decide)

/-- C4 as stated is false in one respect: the error does report resolved
columns and halts, but it reports the matched RAW column names
(`list(col_map.values())`), not the canonical names.  On the header
"warehouse, Code, Eng Name, Quantity" (no Cost-like column) the canonical
name "Warehouse" resolves to raw column "warehouse", yet the reported list
is the raw names and does not contain "Warehouse". -/
theorem c4_counterexample :
    pipeline ["warehouse", "Code", "Eng Name", "Quantity"] [] =
        Except.error
          (PipeError.schemaMismatch ["warehouse", "Code", "Eng Name", "Quantity"]) ∧
      ("Warehouse", "warehouse") ∈ colMap ["warehouse", "Code", "Eng Name", "Quantity"] ∧
      "Warehouse" ∉ ["warehouse", "Code", "Eng Name", "Quantity"] := by
  have hrec : reconcile ["warehouse", "Code", "Eng Name", "Quantity"] =
      Except.error
        (PipeError.schemaMismatch ["warehouse", "Code", "Eng Name", "Quantity"]) := by
    rfl
  exact ⟨by simp only [pipeline, hrec], by decide, by decide⟩

/-- C4 (amended): if fewer than five canonical names are mapped at the 0.6
threshold, the run fails with the missing-columns error reporting the raw
column names that were matched (the mapping's values), no rows are
processed and no output is produced. -/
theorem c4_schema_mismatch (cols : List String) (rows : List Row)
    (h : (colMap cols).length < expected_cols.length) :
    pipeline cols rows =
        Except.error (PipeError.schemaMismatch ((colMap cols).map Prod.snd)) ∧
      ∀ out, pipeline cols rows ≠ Except.ok out := by
  have hrec : reconcile cols =
      Except.error (PipeError.schemaMismatch ((colMap cols).map Prod.snd)) := by
    rw [reconcile, if_pos (by omega)]
  refine ⟨by simp only [pipeline, hrec], ?_⟩
  intro out hout
  rw [pipeline, hrec] at hout
  exact absurd hout (by simp)

/-- C4 witness: the amended claim at the concrete four-column header. -/
theorem c4_witness :
    pipeline ["warehouse", "Code", "Eng Name", "Quantity"] [] =
        Except.error
          (PipeError.schemaMismatch
            ((colMap ["warehouse", "Code", "Eng Name", "Quantity"]).map Prod.snd)) ∧
      ∀ out, pipeline ["warehouse", "Code", "Eng Name", "Quantity"] [] ≠ Except.ok out :=
  c4_schema_mismatch ["warehouse", "Code", "Eng Name", "Quantity"] [] (by decide)

/-- C5 as stated is false in its header row: the seventh header label is
"Notes (Ex. Rate 1.12)" (line 86 of format.py), not "Notes". -/
theorem c5_counterexample :
    (render (correct [])).sheets.map Sheet.header ≠
      [["Warehouse", "Code", "Eng Name", "Quantity", "USD Each", "Total USD Each",
        "Notes"]] := by
  decide

/-- C5 (amended): the output file is named formatted_inventory.xlsx and has
exactly one sheet, named "Formatted", whose header row holds the literal
labels Warehouse, Code, Eng Name, Quantity, USD Each, Total USD Each,
Notes (Ex. Rate 1.12), in that order. -/
theorem c5_output_layout (cs : List Corrected) :
    (render cs).fileName = "formatted_inventory.xlsx" ∧
      (render cs).sheets.map Sheet.name = ["Formatted"] ∧
      (render cs).sheets.map Sheet.header =
        [["Warehouse", "Code", "Eng Name", "Quantity", "USD Each", "Total USD Each",
          "Notes (Ex. Rate 1.12)"]] :=
  ⟨rfl, rfl, rfl⟩

/-- C6 as stated is false in its evaluated value: the total cell of a
non-special row is indeed the product formula over that row's Quantity and
USD Each cells, but the USD Each operand is the currency STRING written by
line 120, so the consuming application multiplies the quantity by the
displayed (cent-rounded) cost.  For quantity 2 and cost 10.004 (an exact
double value, stored as 10.00399...; Python renders it "$10.00") the
formula evaluates to 20, while quantity times unit cost is 20.008. -/
theorem c6_counterexample :
    (renderDataRow 0 (correctRow ⟨"Main", "X", "w", 2, mkRat 2501 250⟩))[5]? =
        some (Cell.mulFormula 3 2 4 2) ∧
      evalTotal (renderRows (correct [⟨"Main", "X", "w", 2, mkRat 2501 250⟩]))
          (Cell.mulFormula 3 2 4 2) = 20 ∧
      (⟨"Main", "X", "w", 2, mkRat 2501 250⟩ : Row).quantity *
        usdEach ⟨"Main", "X", "w", 2, mkRat 2501 250⟩ ≠ 20 := by
  have hmk : (mkRat 2501 250 : ℚ) = 2501 / 250 := by
    norm_num [mkRat, Rat.normalize]
  have hcost : usdEach ⟨"Main", "X", "w", 2, mkRat 2501 250⟩ = mkRat 2501 250 := by
    rw [usdEach, if_neg (by decide), if_neg (by decide)]
  refine ⟨by rfl, ?_, ?_⟩
  · have h1 : ((renderRows (correct [⟨"Main", "X", "w", 2, mkRat 2501 250⟩]))[(2 : Nat) - 2]?).bind
        (fun cells => cells[(3 : Nat)]?) = some (Cell.num (2 : ℚ)) := by rfl
    have h2 : ((renderRows (correct [⟨"Main", "X", "w", 2, mkRat 2501 250⟩]))[(2 : Nat) - 2]?).bind
        (fun cells => cells[(4 : Nat)]?) = some (Cell.str "$10.00") := by rfl
    show operandValue _ 3 2 * operandValue _ 4 2 = 20
    rw [operandValue_eq h1, operandValue_eq h2]
    show (2 : ℚ) * parseCurrency "$10.00" = 20
    simp only [parseCurrency, show currencyNeg "$10.00" = false from rfl,
      show currencyIntN "$10.00" = 10 from rfl,
      show currencyFrac "$10.00" = ['0', '0'] from rfl,
      show digitsToNat ['0', '0'] = 0 from rfl]
    norm_num
  · show (2 : ℚ) * usdEach ⟨"Main", "X", "w", 2, mkRat 2501 250⟩ ≠ 20
    rw [hcost, hmk]
    norm_num

/-- C6 (amended): for every non-special-warehouse row, the rendered total
cell is never a precomputed literal but the live product formula
referencing the Quantity cell (column D) and the USD Each cell (column E)
of that same Excel row, with the exact formula text of line 129; evaluated
by the consuming application it yields the quantity times the value coerced
from the displayed currency text of the unit cost (which equals
quantity * unit_cost exactly when the unit cost is a whole number of
cents). -/
theorem c6_total_formula (rows : List Row) (i : Nat) (r : Row)
    (hr : rows[i]? = some r) (hw : r.warehouse ∉ special_warehouses) :
    (renderRows (correct rows))[i]? = some (renderDataRow i (correctRow r)) ∧
      (renderDataRow i (correctRow r))[5]? =
        some (Cell.mulFormula qty_col (i + 2) usd_col (i + 2)) ∧
      Cell.text (Cell.mulFormula qty_col (i + 2) usd_col (i + 2)) =
        "=" ++ (colLetter qty_col).toString ++ toString (i + 2) ++ "*" ++
          (colLetter usd_col).toString ++ toString (i + 2) ∧
      evalTotal (renderRows (correct rows))
          (Cell.mulFormula qty_col (i + 2) usd_col (i + 2)) =
        r.quantity * parseCurrency (fmtUSD (usdEach r)) := by
  have hfirst : (renderRows (correct rows))[i]? =
      some (renderDataRow i (correctRow r)) := by
    rw [renderRows, renderRowsFrom_getElem?, correct, List.getElem?_map, hr]
    simp
  have htot : (correctRow r).total = "" := by
    show totalMark r = ""
    rw [totalMark, if_neg hw]
  have hfive : (renderDataRow i (correctRow r))[5]? =
      some (if (correctRow r).total = "$0.00" then Cell.str "$0.00"
        else Cell.mulFormula qty_col (i + 2) usd_col (i + 2)) := rfl
  refine ⟨hfirst, ?_, rfl, ?_⟩
  · rw [hfive, htot, if_neg (by decide)]
  · have harith : i + 2 - 2 = i := by omega
    have h1 : ((renderRows (correct rows))[i + 2 - 2]?).bind
        (fun cells => cells[qty_col]?) = some (Cell.num r.quantity) := by
      rw [harith, hfirst]
      rfl
    have h2 : ((renderRows (correct rows))[i + 2 - 2]?).bind
        (fun cells => cells[usd_col]?) = some (Cell.str (fmtUSD (usdEach r))) := by
      rw [harith, hfirst]
      rfl
    show operandValue _ qty_col (i + 2) * operandValue _ usd_col (i + 2) = _
    rw [operandValue_eq h1, operandValue_eq h2]
    rfl

/-- C6 witness: the amended claim at a concrete one-row table. -/
theorem c6_witness :
    (renderRows (correct [⟨"Main", "X", "w", 2, mkRat 500 1⟩]))[0]? =
        some (renderDataRow 0 (correctRow ⟨"Main", "X", "w", 2, mkRat 500 1⟩)) ∧
      (renderDataRow 0 (correctRow ⟨"Main", "X", "w", 2, mkRat 500 1⟩))[5]? =
        some (Cell.mulFormula qty_col (0 + 2) usd_col (0 + 2)) ∧
      Cell.text (Cell.mulFormula qty_col (0 + 2) usd_col (0 + 2)) =
        "=" ++ (colLetter qty_col).toString ++ toString (0 + 2) ++ "*" ++
          (colLetter usd_col).toString ++ toString (0 + 2) ∧
      evalTotal (renderRows (correct [⟨"Main", "X", "w", 2, mkRat 500 1⟩]))
          (Cell.mulFormula qty_col (0 + 2) usd_col (0 + 2)) =
        (⟨"Main", "X", "w", 2, mkRat 500 1⟩ : Row).quantity *
          parseCurrency (fmtUSD (usdEach ⟨"Main", "X", "w", 2, mkRat 500 1⟩)) :=
  c6_total_formula [⟨"Main", "X", "w", 2, mkRat 500 1⟩] 0
    ⟨"Main", "X", "w", 2, mkRat 500 1⟩ (by rfl) (by decide)

/-- C8: whenever reconciliation succeeds (so row processing begins), every
canonical column name is literally present in the raw header and the
produced mapping is injective — each canonical name resolved to itself, so
no two canonical names share a raw column; conversely a table whose
mapping is not injective is rejected before any row is processed. -/
theorem c8_unique_resolution :
    (∀ cols renamed : List String, reconcile cols = Except.ok renamed →
        (∀ c ∈ expected_cols, c ∈ cols) ∧ colMapInjective cols) ∧
      ∀ cols : List String, ¬ colMapInjective cols →
        ∃ e, reconcile cols = Except.error e := by
  refine ⟨fun cols renamed hok => reconcile_ok_inj hok, ?_⟩
  intro cols hni
  rcases hrec : reconcile cols with e | v
  · exact ⟨e, rfl⟩
  · exact absurd (reconcile_ok_inj hrec).2 hni

/-- C8 witness: the exact canonical header reconciles successfully, hence
its mapping is injective. -/
theorem c8_witness :
    (∀ c ∈ expected_cols, c ∈ expected_cols) ∧ colMapInjective expected_cols :=
  c8_unique_resolution.1 expected_cols expected_cols (by rfl)

/-- C10: correction and rendering keep exactly one row per input row in the
input order: lengths are preserved and the entry at every index is the
image of the input row at that same index. -/
theorem c10_row_preservation (rows : List Row) :
    (correct rows).length = rows.length ∧
      (renderRows (correct rows)).length = rows.length ∧
      (∀ i : Nat, (correct rows)[i]? = (rows[i]?).map correctRow) ∧
      ∀ i : Nat, (renderRows (correct rows))[i]? =
        (rows[i]?).map fun r => renderDataRow i (correctRow r) := by
  refine ⟨by rw [correct, List.length_map], ?_, fun i => ?_, fun i => ?_⟩
  · rw [renderRows, renderRowsFrom_length, correct, List.length_map]
  · rw [correct, List.getElem?_map]
  · rw [renderRows, renderRowsFrom_getElem?, correct, List.getElem?_map]
    rcases h : rows[i]? with _ | r
    · rfl
    · simp
